import Mathlib

/-!
Verification of the K-nearest-neighbors classification core of the
`introduction-to-datascience-python` chapter `classification1.py`.

The chapter computes Euclidean distances explicitly
(`cancer_dist["dist_from_new"] = np.sqrt((P - p0)**2 + (C - c0)**2)`),
sorts rows ascending by distance and keeps the first `k`
(`sort_values(by="dist_from_new").head(5)`), and delegates majority-vote
classification, standardization and oversampling to
`sklearn.KNeighborsClassifier`, `StandardScaler` and `sklearn.utils.resample`.
Feature values are embedded as rationals and distances as real numbers
(`Real.sqrt` of a rational sum of squares), so floating-point rounding is
abstracted to exact arithmetic.
-/

namespace KnnCore

/-- A feature vector: an ordered sequence of numeric predictor values,
as in the `Perimeter`, `Concavity`, ... columns of the chapter. -/
abbrev FeatureVector := List ℚ

/-- A labeled sample: one row of the training table, its predictor values
paired with its categorical `Class` label (for the chapter, the strings
B or M, later renamed to Benign / Malignant). -/
structure LabeledSample where
  features : FeatureVector
  label : String
deriving DecidableEq

instance : Inhabited LabeledSample := ⟨⟨[], ""⟩⟩

/-- A training set: an ordered sequence of labeled samples (the rows of the
training table, in their original order). -/
abbrev TrainingSet := List LabeledSample

/-- Squared Euclidean distance, the sum of squared coordinate differences:
the quantity under the square root in the source's distance computation
`np.sqrt((a["Perimeter"] - b_P)**2 + (a["Concavity"] - b_C)**2 + ...)`,
summed column by column as in `cancer_dist` / `cancer_dist2`. -/
def distSq (a b : List ℚ) : ℚ :=
  (List.zipWith (fun x y => (x - y) ^ 2) a b).sum

/-- The source's `dist_from_new` for the two-predictor case of `cancer_dist`:
`np.sqrt((Perimeter - new_obs_Perimeter)**2 + (Concavity - new_obs_Concavity)**2)`. -/
noncomputable def dist_from_new (P C p0 c0 : ℚ) : ℝ :=
  Real.sqrt (((P - p0) ^ 2 + (C - c0) ^ 2 : ℚ))

/-- Euclidean distance between two feature vectors, as computed by the source:
square the per-column differences, add them, and take the square root. -/
noncomputable def distance (a b : List ℚ) : ℝ :=
  Real.sqrt ((distSq a b : ℚ))

theorem distance_eq_dist_from_new (P C p0 c0 : ℚ) :
    distance [P, C] [p0, c0] = dist_from_new P C p0 c0 := by
  simp [distance, dist_from_new, distSq]

theorem distSq_nonneg (a b : List ℚ) : 0 ≤ distSq a b := by
  induction a generalizing b with
  | nil => simp [distSq]
  | cons x xs ih =>
    cases b with
    | nil => simp [distSq]
    | cons y ys =>
      have h := ih ys
      simp only [distSq, List.zipWith_cons_cons, List.sum_cons] at *
      positivity

theorem distSq_comm (a b : List ℚ) : distSq a b = distSq b a := by
  induction a generalizing b with
  | nil => cases b <;> simp [distSq]
  | cons x xs ih =>
    cases b with
    | nil => simp [distSq]
    | cons y ys =>
      simp only [distSq, List.zipWith_cons_cons, List.sum_cons] at *
      rw [ih ys]
      ring_nf

theorem distSq_eq_zero_iff (a b : List ℚ) (h : a.length = b.length) :
    distSq a b = 0 ↔ a = b := by
  induction a generalizing b with
  | nil =>
    cases b with
    | nil => simp [distSq]
    | cons y ys => simp at h
  | cons x xs ih =>
    cases b with
    | nil => simp at h
    | cons y ys =>
      simp only [List.length_cons, Nat.succ_inj] at h
      simp only [distSq, List.zipWith_cons_cons, List.sum_cons]
      constructor
      · intro h0
        have hx2 : (0:ℚ) ≤ (x - y) ^ 2 := sq_nonneg _
        have hrest : (0:ℚ) ≤ distSq xs ys := distSq_nonneg xs ys
        have h1 : (x - y) ^ 2 = 0 := by
          have : distSq xs ys = 0 ∨ (x - y) ^ 2 = 0 := by
            rcases lt_or_eq_of_le hx2 with hlt | heq
            · exfalso
              have : (0:ℚ) < (x - y) ^ 2 + distSq xs ys := by linarith
              rw [show (x - y) ^ 2 + List.sum (List.zipWith (fun x y => (x - y) ^ 2) xs ys) = (x - y) ^ 2 + distSq xs ys from rfl] at h0
              linarith
            · right; exact heq.symm
          rcases this with h2 | h2
          · rw [show List.sum (List.zipWith (fun x y => (x - y) ^ 2) xs ys) = distSq xs ys from rfl] at h0
            linarith
          · exact h2
        have h2 : distSq xs ys = 0 := by
          rw [show List.sum (List.zipWith (fun x y => (x - y) ^ 2) xs ys) = distSq xs ys from rfl] at h0
          linarith
        have hxy : x = y := by
          have hsz := sq_eq_zero_iff.mp h1
          linarith [sub_eq_zero.mp hsz]
        rw [hxy, (ih ys h).mp h2]
      · intro he
        injection he with h1 h2
        subst h1
        have : distSq xs ys = 0 := (ih ys (by simpa using h)).mpr (by simpa using h2)
        rw [show List.sum (List.zipWith (fun x y => (x - y) ^ 2) xs ys) = distSq xs ys from rfl, this]
        ring

theorem distSq_eq_rangeSum (a b : List ℚ) (h : a.length = b.length) :
    (distSq a b : ℝ) =
      ∑ i ∈ Finset.range a.length, ((a.getD i 0 : ℝ) - (b.getD i 0 : ℝ)) ^ 2 := by
  induction a generalizing b with
  | nil => simp [distSq]
  | cons x xs ih =>
    cases b with
    | nil => simp at h
    | cons y ys =>
      simp only [List.length_cons, Nat.succ_inj] at h
      rw [show (x :: xs).length = xs.length + 1 from rfl, Finset.sum_range_succ']
      simp only [distSq, List.zipWith_cons_cons, List.sum_cons]
      rw [Rat.cast_add, Rat.cast_pow, Rat.cast_sub]
      rw [show ((List.zipWith (fun x y => (x - y) ^ 2) xs ys).sum : ℚ) = distSq xs ys from rfl]
      rw [ih ys h]
      simp only [List.getD_cons_succ, List.getD_cons_zero]
      ring

/-- One candidate neighbor during a search: the training sample, its
position in the training set (insertion order), and its squared distance
to the query, as in the `dist_from_new` column added to the training table. -/
structure Neighbor where
  idx : ℕ
  sample : LabeledSample
  dsq : ℚ
deriving DecidableEq

/-- Comparison used to sort candidate neighbors: ascending squared distance
(equivalently ascending distance), with exact ties broken by the original
insertion order in the training set. -/
def neighborLE (x y : Neighbor) : Prop :=
  x.dsq < y.dsq ∨ (x.dsq = y.dsq ∧ x.idx ≤ y.idx)

instance : DecidableRel neighborLE := fun x y => by
  unfold neighborLE; infer_instance

instance : IsTotal Neighbor neighborLE := by
  constructor
  intro a b
  rcases lt_trichotomy a.dsq b.dsq with h | h | h
  · exact Or.inl (Or.inl h)
  · rcases Nat.le_total a.idx b.idx with h2 | h2
    · exact Or.inl (Or.inr ⟨h, h2⟩)
    · exact Or.inr (Or.inr ⟨h.symm, h2⟩)
  · exact Or.inr (Or.inl h)

instance : IsTrans Neighbor neighborLE := by
  constructor
  intro a b c hab hbc
  rcases hab with h1 | ⟨h1, h1i⟩ <;> rcases hbc with h2 | ⟨h2, h2i⟩
  · exact Or.inl (h1.trans h2)
  · exact Or.inl (h2 ▸ h1)
  · exact Or.inl (h1 ▸ h2)
  · exact Or.inr ⟨h1.trans h2, h1i.trans h2i⟩

/-- Modelled from the spec: the repository computes the per-row distance
column explicitly (`cancer_dist["dist_from_new"] = np.sqrt(...)`) but holds
it in a pandas frame; here each training row is annotated with its index
and its squared distance to the query. -/
def annotate (T : TrainingSet) (q : FeatureVector) : List Neighbor :=
  T.enum.map fun p => ⟨p.1, p.2, distSq p.2.features q⟩

/-- The training rows sorted ascending by distance to the query, the
embedding of the source's `sort_values(by="dist_from_new")`.  Modelled from
the spec: the spec's tie-break policy mandates stable selection by
insertion order, which the index component of `neighborLE` realizes; the
repository itself delegates the sort to pandas / sklearn. -/
def sortedNeighbors (T : TrainingSet) (q : FeatureVector) : List Neighbor :=
  List.insertionSort neighborLE (annotate T q)

/-- The `k` nearest annotated neighbors: sort ascending and take the first
`k` rows, the embedding of `sort_values(by="dist_from_new").head(k)`. -/
def nearestAux (T : TrainingSet) (q : FeatureVector) (k : ℕ) : List Neighbor :=
  (sortedNeighbors T q).take k

/-- Modelled from the spec: `nearest(trainingSet, query, k)` returns the `k`
samples with smallest distance, each paired with its distance, sorted
ascending by distance.  The repository delegates this to
`KNeighborsClassifier`; the illustrative pandas code sorts and takes
`head(5)` as embedded by `nearestAux`. -/
noncomputable def nearest (T : TrainingSet) (q : FeatureVector) (k : ℕ) :
    List (LabeledSample × ℝ) :=
  (nearestAux T q k).map fun n => (n.sample, Real.sqrt (n.dsq : ℚ))

theorem length_annotate (T : TrainingSet) (q : FeatureVector) :
    (annotate T q).length = T.length := by
  simp [annotate]

theorem length_sortedNeighbors (T : TrainingSet) (q : FeatureVector) :
    (sortedNeighbors T q).length = T.length := by
  rw [sortedNeighbors, (List.perm_insertionSort neighborLE (annotate T q)).length_eq]
  exact length_annotate T q

theorem sortedNeighbors_sorted (T : TrainingSet) (q : FeatureVector) :
    (sortedNeighbors T q).Sorted neighborLE :=
  List.sorted_insertionSort neighborLE (annotate T q)

theorem sortedNeighbors_perm (T : TrainingSet) (q : FeatureVector) :
    (sortedNeighbors T q).Perm (annotate T q) :=
  List.perm_insertionSort neighborLE (annotate T q)

theorem mem_annotate_of_lt (T : TrainingSet) (q : FeatureVector)
    (i : ℕ) (hi : i < T.length) :
    (⟨i, T.get ⟨i, hi⟩, distSq (T.get ⟨i, hi⟩).features q⟩ : Neighbor) ∈
      annotate T q := by
  unfold annotate
  have hb : i < T.enum.length := by simpa using hi
  have hmem : (i, T.get ⟨i, hi⟩) ∈ T.enum := by
    have h1 : T.enum[i] = (i, T[i]) := List.getElem_enum T i hb
    have hg : T.enum[i] ∈ T.enum := List.getElem_mem hb
    rw [h1] at hg
    simpa [List.get_eq_getElem] using hg
  exact List.mem_map.mpr ⟨(i, T.get ⟨i, hi⟩), hmem, rfl⟩

theorem annotate_sample_map (T : TrainingSet) (q : FeatureVector) :
    (annotate T q).map Neighbor.sample = T := by
  unfold annotate
  rw [List.map_map]
  have : (Neighbor.sample ∘ fun p : ℕ × LabeledSample =>
      (⟨p.1, p.2, distSq p.2.features q⟩ : Neighbor)) = Prod.snd := rfl
  rw [this, List.enum_map_snd]

theorem mem_annotate_elim {T : TrainingSet} {q : FeatureVector} {n : Neighbor}
    (h : n ∈ annotate T q) :
    n.idx < T.length ∧ n.sample ∈ T ∧ n.dsq = distSq n.sample.features q := by
  unfold annotate at h
  rcases List.mem_map.mp h with ⟨p, hp, rfl⟩
  obtain ⟨i, x⟩ := p
  have h2 : T[i]? = some x := List.mk_mem_enum_iff_getElem?.mp hp
  have hlt : i < T.length := by
    by_contra hge
    rw [List.getElem?_eq_none (le_of_not_lt hge)] at h2
    simp at h2
  refine ⟨hlt, ?_, rfl⟩
  have hx : T[i] = x := by
    rw [List.getElem?_eq_getElem hlt] at h2
    exact Option.some.inj h2
  rw [show (⟨i, x, distSq x.features q⟩ : Neighbor).sample = x from rfl, ← hx]
  exact List.getElem_mem _

/-- One step of the majority-vote scan: adopt the candidate label when it
has strictly more occurrences than the current best. -/
def voteStep (ls : List String) (best c : String) : String :=
  if ls.count best < ls.count c then c else best

/-- Modelled from the spec: `predictOne` tallies occurrences of each label
among the `k` nearest neighbors and returns the label with the highest
count; vote ties resolve to the tied label appearing first in
ascending-distance order.  The repository delegates this to
`KNeighborsClassifier.predict`; the chapter states the rule as "among those
closest points, we use the majority class as our prediction". -/
def pickMajority (ls : List String) : Option String :=
  match ls with
  | [] => none
  | h :: t => some (t.foldl (voteStep ls) h)

/-- The labels of the `k` nearest neighbors, scanned in ascending-distance
order. -/
def neighborLabels (T : TrainingSet) (q : FeatureVector) (k : ℕ) : List String :=
  (nearestAux T q k).map fun n => n.sample.label

/-- Modelled from the spec: `predictOne(query)` asks the neighbor selector
for the `k` nearest samples and majority-votes their labels. -/
def predictOne (T : TrainingSet) (q : FeatureVector) (k : ℕ) : Option String :=
  pickMajority (neighborLabels T q k)

theorem voteFold_spec (ls : List String) :
    ∀ (t : List String) (best : String),
      (t.foldl (voteStep ls) best = best ∨ t.foldl (voteStep ls) best ∈ t) ∧
      ls.count best ≤ ls.count (t.foldl (voteStep ls) best) ∧
      (∀ c ∈ t, ls.count c ≤ ls.count (t.foldl (voteStep ls) best)) ∧
      (t.foldl (voteStep ls) best ≠ best →
        ls.count best < ls.count (t.foldl (voteStep ls) best)) ∧
      (t.foldl (voteStep ls) best ≠ best →
        ∃ pre post, t = pre ++ t.foldl (voteStep ls) best :: post ∧
          ∀ c ∈ pre, ls.count c < ls.count (t.foldl (voteStep ls) best)) := by
  intro t
  induction t with
  | nil =>
    intro best
    exact ⟨Or.inl rfl, le_refl _, by simp, fun h => absurd rfl h,
      fun h => absurd rfl h⟩
  | cons c t ih =>
    intro best
    simp only [List.foldl_cons]
    by_cases hc : ls.count best < ls.count c
    · have hstep : voteStep ls best c = c := if_pos hc
      rw [hstep]
      obtain ⟨hmem, hle, hall, hstrict, hfirst⟩ := ih c
      refine ⟨?_, ?_, ?_, ?_, ?_⟩
      · rcases hmem with h | h
        · exact Or.inr (by simp [h])
        · exact Or.inr (List.mem_cons_of_mem _ h)
      · exact le_of_lt (lt_of_lt_of_le hc hle)
      · intro d hd
        rcases List.mem_cons.mp hd with h | h
        · rw [h]; exact hle
        · exact hall d h
      · intro _
        exact lt_of_lt_of_le hc hle
      · intro _
        by_cases hrc : t.foldl (voteStep ls) c = c
        · exact ⟨[], t, by simp [hrc], by simp⟩
        · obtain ⟨pre, post, hsplit, hpre⟩ := hfirst hrc
          refine ⟨c :: pre, post, by rw [List.cons_append, ← hsplit], ?_⟩
          intro d hd
          rcases List.mem_cons.mp hd with h | h
          · rw [h]; exact hstrict hrc
          · exact hpre d h
    · have hstep : voteStep ls best c = best := if_neg hc
      rw [hstep]
      obtain ⟨hmem, hle, hall, hstrict, hfirst⟩ := ih best
      refine ⟨?_, hle, ?_, hstrict, ?_⟩
      · rcases hmem with h | h
        · exact Or.inl h
        · exact Or.inr (List.mem_cons_of_mem _ h)
      · intro d hd
        rcases List.mem_cons.mp hd with h | h
        · rw [h]; exact le_trans (le_of_not_lt hc) hle
        · exact hall d h
      · intro hne
        obtain ⟨pre, post, hsplit, hpre⟩ := hfirst hne
        refine ⟨c :: pre, post, by rw [List.cons_append, ← hsplit], ?_⟩
        intro d hd
        rcases List.mem_cons.mp hd with h | h
        · rw [h]; exact lt_of_le_of_lt (le_of_not_lt hc) (hstrict hne)
        · exact hpre d h

theorem pickMajority_spec (ls : List String) (h : ls ≠ []) :
    ∃ w, pickMajority ls = some w ∧ w ∈ ls ∧
      (∀ c ∈ ls, ls.count c ≤ ls.count w) ∧
      ∃ pre post, ls = pre ++ w :: post ∧
        ∀ c ∈ pre, ls.count c < ls.count w := by
  cases ls with
  | nil => exact absurd rfl h
  | cons hd t =>
    obtain ⟨hmem, hle, hall, hstrict, hfirst⟩ := voteFold_spec (hd :: t) t hd
    refine ⟨t.foldl (voteStep (hd :: t)) hd, rfl, ?_, ?_, ?_⟩
    · rcases hmem with h1 | h1
      · rw [h1]; exact List.mem_cons_self _ _
      · exact List.mem_cons_of_mem _ h1
    · intro c hc
      rcases List.mem_cons.mp hc with h1 | h1
      · rw [h1]; exact hle
      · exact hall c h1
    · by_cases hr : t.foldl (voteStep (hd :: t)) hd = hd
      · exact ⟨[], t, by simp [hr], by simp⟩
      · obtain ⟨pre, post, hsplit, hpre⟩ := hfirst hr
        refine ⟨hd :: pre, post, by rw [List.cons_append, ← hsplit], ?_⟩
        intro c hc
        rcases List.mem_cons.mp hc with h1 | h1
        · rw [h1]; exact hstrict hr
        · exact hpre c h1

theorem take_le_drop_of_sorted (T : TrainingSet) (q : FeatureVector) (k : ℕ) :
    ∀ x ∈ (sortedNeighbors T q).take k,
      ∀ y ∈ (sortedNeighbors T q).drop k, neighborLE x y := by
  have hs : ((sortedNeighbors T q).take k ++ (sortedNeighbors T q).drop k).Pairwise
      neighborLE := by
    rw [List.take_append_drop]
    exact sortedNeighbors_sorted T q
  intro x hx y hy
  exact (List.pairwise_append.mp hs).2.2 x hx y hy

theorem mem_nearestAux_elim {T : TrainingSet} {q : FeatureVector} {k : ℕ}
    {n : Neighbor} (h : n ∈ nearestAux T q k) :
    n.idx < T.length ∧ n.sample ∈ T ∧ n.dsq = distSq n.sample.features q :=
  mem_annotate_elim ((sortedNeighbors_perm T q).mem_iff.mp
    ((List.take_sublist k (sortedNeighbors T q)).subset h))

/-- Error kinds of the classification core, from the spec's error taxonomy. -/
inductive KnnError where
  | invalidInput
  | dimensionMismatch
  | invalidArgument
deriving DecidableEq

/-- A trained majority-vote classifier: an immutable training set and a
fixed neighbor count `k`, as configured by
`KNeighborsClassifier(n_neighbors=k).fit(X, y)`. -/
structure Classifier where
  train : TrainingSet
  k : ℕ
deriving DecidableEq

/-- Modelled from the spec: `build(trainingSet, k)` constructs the
classifier, failing eagerly with `InvalidArgumentError` when `k <= 0` or
`k > size(trainingSet)`.  The repository delegates construction to
`KNeighborsClassifier(n_neighbors=k)` / `.fit(...)`. -/
def build (T : TrainingSet) (k : ℤ) : Except KnnError Classifier :=
  if k ≤ 0 ∨ (T.length : ℤ) < k then Except.error KnnError.invalidArgument
  else Except.ok ⟨T, k.toNat⟩

/-- Prediction on a built classifier: the majority vote of the `k` nearest
neighbors of the query. -/
def Classifier.predict (c : Classifier) (q : FeatureVector) : Option String :=
  predictOne c.train q c.k

/-- Modelled from the spec: the per-column arithmetic mean computed by the
`fit` step of the `StandardScaler` preprocessor (the repository calls
`preprocessor.fit(unscaled_cancer)`; the scaler itself is library code). -/
def colMean (xs : List ℚ) : ℚ :=
  xs.sum / xs.length

/-- Modelled from the spec: the per-column population variance (the square
of `StandardScaler`'s stored standard deviation, which uses the `1/n`
normalization). -/
def colVar (xs : List ℚ) : ℚ :=
  (xs.map fun x => (x - colMean xs) ^ 2).sum / xs.length

/-- The divisor used by `transform`: the column standard deviation, with
`StandardScaler`'s zero-variance fallback of dividing by 1 so that a
constant column maps to 0 rather than dividing by zero. -/
noncomputable def colScale (xs : List ℚ) : ℝ :=
  if colVar xs = 0 then 1 else Real.sqrt ((colVar xs : ℚ))

/-- Modelled from the spec: `transform` replaces each value with
`(value - mean) / stddev` for its column, using the stored fit parameters. -/
noncomputable def transformCol (xs : List ℚ) : List ℝ :=
  xs.map fun x : ℚ => ((x - colMean xs : ℚ) : ℝ) / colScale xs

/-- Arithmetic mean of a real column (used to state the round-trip
property of the scaler). -/
noncomputable def meanR (xs : List ℝ) : ℝ :=
  xs.sum / xs.length

/-- Population variance of a real column. -/
noncomputable def varR (xs : List ℝ) : ℝ :=
  (xs.map fun x => (x - meanR xs) ^ 2).sum / xs.length

/-- Population standard deviation of a real column. -/
noncomputable def stdR (xs : List ℝ) : ℝ :=
  Real.sqrt (varR xs)

/-- The distinct labels of a list, in order of first appearance: the
partition keys of the groupby used when balancing classes. -/
def uniqueLabels : List String → List String
  | [] => []
  | c :: t => c :: uniqueLabels (t.filter fun d => d ≠ c)
termination_by l => l.length
decreasing_by
  exact Nat.lt_succ_of_le (List.length_filter_le _ _)

/-- The rows of a training table carrying a given label, in original order:
the embedding of `rare_cancer[rare_cancer["Class"] == c]`. -/
def classMembers (T : TrainingSet) (c : String) : List LabeledSample :=
  T.filter fun s => s.label = c

/-- The size of the largest class: the resampling target
(`n_samples=len(benign_cancer)` in the source). -/
def majoritySize (T : TrainingSet) : ℕ :=
  ((uniqueLabels (T.map fun s => s.label)).map
    fun c => (classMembers T c).length).foldr max 0

/-- Modelled from the spec: drawing `M` samples with replacement from the
existing members of a class, as `sklearn.utils.resample(cls, n_samples=M)`
does; the random generator is abstracted as the draw function `draw`. -/
def resampleClass (ms : List LabeledSample) (M : ℕ) (draw : ℕ → ℕ) :
    List LabeledSample :=
  (List.range M).map fun i => ms.getD (draw i % ms.length) default

/-- Modelled from the spec: `balance(table)` partitions the table by label,
passes classes already at the majority size through unchanged, and replaces
every other class by majority-size many draws with replacement from its
members, as the source does with `resample` + `concat`. -/
def balance (T : TrainingSet) (draw : String → ℕ → ℕ) : TrainingSet :=
  (uniqueLabels (T.map fun s => s.label)).flatMap fun c =>
    if (classMembers T c).length = majoritySize T then classMembers T c
    else resampleClass (classMembers T c) (majoritySize T) (draw c)

theorem colVar_nonneg (xs : List ℚ) : 0 ≤ colVar xs := by
  unfold colVar
  apply div_nonneg
  · apply List.sum_nonneg
    intro x hx
    rcases List.mem_map.mp hx with ⟨y, _, rfl⟩
    exact sq_nonneg _
  · positivity

theorem colScale_sq (xs : List ℚ) (hv : colVar xs ≠ 0) :
    colScale xs ^ 2 = ((colVar xs : ℚ) : ℝ) := by
  unfold colScale
  rw [if_neg hv, sq]
  exact Real.mul_self_sqrt (by exact_mod_cast colVar_nonneg xs)

theorem colScale_ne_zero (xs : List ℚ) (hv : colVar xs ≠ 0) :
    colScale xs ≠ 0 := by
  unfold colScale
  rw [if_neg hv]
  have h0 : (0:ℝ) < ((colVar xs : ℚ) : ℝ) := by
    exact_mod_cast lt_of_le_of_ne (colVar_nonneg xs) (Ne.symm hv)
  exact ne_of_gt (Real.sqrt_pos.mpr h0)

theorem sum_map_center_div (c : ℚ) (s : ℝ) (l : List ℚ) :
    (l.map fun x : ℚ => ((x - c : ℚ) : ℝ) / s).sum
      = ((l.sum - l.length * c : ℚ) : ℝ) / s := by
  induction l with
  | nil => simp
  | cons x t ih =>
    simp only [List.map_cons, List.sum_cons, ih, List.length_cons]
    push_cast
    ring

theorem sum_map_center_sq_div (c : ℚ) (s : ℝ) (l : List ℚ) :
    (l.map fun x : ℚ => (((x - c : ℚ) : ℝ) / s) ^ 2).sum
      = (((l.map fun x : ℚ => (x - c) ^ 2).sum : ℚ) : ℝ) / s ^ 2 := by
  induction l with
  | nil => simp
  | cons x t ih =>
    simp only [List.map_cons, List.sum_cons, ih]
    push_cast
    ring

theorem sum_transformCol (xs : List ℚ) (h : xs ≠ []) :
    (transformCol xs).sum = 0 := by
  have hn : (xs.length : ℚ) ≠ 0 := by
    have : xs.length ≠ 0 := fun h0 => h (List.length_eq_zero.mp h0)
    exact_mod_cast Nat.cast_ne_zero.mpr this
  unfold transformCol
  rw [sum_map_center_div (colMean xs) (colScale xs) xs]
  have hz : xs.sum - xs.length * colMean xs = 0 := by
    unfold colMean
    field_simp
  rw [hz]
  simp

theorem meanR_transformCol (xs : List ℚ) (h : xs ≠ []) :
    meanR (transformCol xs) = 0 := by
  unfold meanR
  rw [sum_transformCol xs h, zero_div]

theorem varR_transformCol (xs : List ℚ) (h : xs ≠ []) (hv : colVar xs ≠ 0) :
    varR (transformCol xs) = 1 := by
  have hn : (xs.length : ℚ) ≠ 0 := by
    have : xs.length ≠ 0 := fun h0 => h (List.length_eq_zero.mp h0)
    exact_mod_cast Nat.cast_ne_zero.mpr this
  have hnr : ((xs.length : ℕ) : ℝ) ≠ 0 := by exact_mod_cast hn
  have hvr : ((colVar xs : ℚ) : ℝ) ≠ 0 := by exact_mod_cast hv
  unfold varR
  rw [meanR_transformCol xs h]
  unfold transformCol
  rw [List.map_map]
  have hfun : ((fun y : ℝ => (y - 0) ^ 2) ∘
      fun x : ℚ => ((x - colMean xs : ℚ) : ℝ) / colScale xs) =
      fun x : ℚ => (((x - colMean xs : ℚ) : ℝ) / colScale xs) ^ 2 := by
    funext x
    simp [Function.comp]
  rw [hfun, sum_map_center_sq_div (colMean xs) (colScale xs) xs]
  have hS : ((xs.map fun x : ℚ => (x - colMean xs) ^ 2).sum : ℚ) =
      colVar xs * xs.length := by
    unfold colVar
    field_simp
  rw [hS, colScale_sq xs hv, List.length_map]
  push_cast
  field_simp

theorem stdR_transformCol (xs : List ℚ) (h : xs ≠ []) (hv : colVar xs ≠ 0) :
    stdR (transformCol xs) = 1 := by
  unfold stdR
  rw [varR_transformCol xs h hv, Real.sqrt_one]

theorem mem_uniqueLabels (l : List String) (c : String) :
    c ∈ uniqueLabels l ↔ c ∈ l := by
  induction l using uniqueLabels.induct with
  | case1 => rw [uniqueLabels]
  | case2 d t ih =>
    rw [uniqueLabels]
    constructor
    · intro h
      rcases List.mem_cons.mp h with h1 | h1
      · exact h1 ▸ List.mem_cons_self _ _
      · have := ih.mp h1
        exact List.mem_cons_of_mem _ (List.mem_of_mem_filter this)
    · intro h
      rcases List.mem_cons.mp h with h1 | h1
      · exact h1 ▸ List.mem_cons_self _ _
      · by_cases hdc : c = d
        · exact hdc ▸ List.mem_cons_self _ _
        · refine List.mem_cons_of_mem _ (ih.mpr ?_)
          exact List.mem_filter.mpr ⟨h1, by simpa using hdc⟩

theorem nodup_uniqueLabels (l : List String) : (uniqueLabels l).Nodup := by
  induction l using uniqueLabels.induct with
  | case1 => rw [uniqueLabels]; exact List.nodup_nil
  | case2 d t ih =>
    rw [uniqueLabels]
    refine List.nodup_cons.mpr ⟨?_, ih⟩
    intro hmem
    have := (mem_uniqueLabels _ _).mp hmem
    have := List.of_mem_filter this
    simp at this

theorem label_of_mem_classMembers {T : TrainingSet} {c : String}
    {s : LabeledSample} (h : s ∈ classMembers T c) : s.label = c := by
  have := List.of_mem_filter h
  simpa using this

theorem mem_of_mem_classMembers {T : TrainingSet} {c : String}
    {s : LabeledSample} (h : s ∈ classMembers T c) : s ∈ T :=
  List.mem_of_mem_filter h

theorem classMembers_ne_nil {T : TrainingSet} {c : String}
    (h : c ∈ uniqueLabels (T.map fun s => s.label)) :
    classMembers T c ≠ [] := by
  have hc : c ∈ T.map fun s => s.label := (mem_uniqueLabels _ _).mp h
  rcases List.mem_map.mp hc with ⟨s, hs, hlab⟩
  intro hnil
  have : s ∈ classMembers T c := List.mem_filter.mpr ⟨hs, by simpa using hlab⟩
  rw [hnil] at this
  exact List.not_mem_nil s this

theorem mem_of_mem_resampleClass {ms : List LabeledSample} {M : ℕ}
    {draw : ℕ → ℕ} {s : LabeledSample} (hne : ms ≠ [])
    (h : s ∈ resampleClass ms M draw) : s ∈ ms := by
  rcases List.mem_map.mp h with ⟨i, _, rfl⟩
  have hlen : 0 < ms.length := List.length_pos.mpr hne
  have hlt : draw i % ms.length < ms.length := Nat.mod_lt _ hlen
  rw [List.getD_eq_getElem ms default hlt]
  exact List.getElem_mem _

theorem length_resampleClass (ms : List LabeledSample) (M : ℕ) (draw : ℕ → ℕ) :
    (resampleClass ms M draw).length = M := by
  simp [resampleClass]

/-- The block of rows that `balance` emits for one class. -/
def balanceBlock (T : TrainingSet) (draw : String → ℕ → ℕ) (c : String) :
    List LabeledSample :=
  if (classMembers T c).length = majoritySize T then classMembers T c
  else resampleClass (classMembers T c) (majoritySize T) (draw c)

theorem balance_eq_flatMap (T : TrainingSet) (draw : String → ℕ → ℕ) :
    balance T draw =
      (uniqueLabels (T.map fun s => s.label)).flatMap (balanceBlock T draw) := rfl

theorem mem_balanceBlock_mem {T : TrainingSet} {draw : String → ℕ → ℕ}
    {c : String} {s : LabeledSample}
    (hc : c ∈ uniqueLabels (T.map fun s => s.label))
    (h : s ∈ balanceBlock T draw c) : s ∈ classMembers T c := by
  unfold balanceBlock at h
  split at h
  · exact h
  · exact mem_of_mem_resampleClass (classMembers_ne_nil hc) h

theorem length_balanceBlock (T : TrainingSet) (draw : String → ℕ → ℕ)
    (c : String) : (balanceBlock T draw c).length = majoritySize T ∨
      ((classMembers T c).length = majoritySize T ∧
        balanceBlock T draw c = classMembers T c) := by
  unfold balanceBlock
  split
  · next h => exact Or.inr ⟨h, rfl⟩
  · exact Or.inl (length_resampleClass _ _ _)

theorem length_balanceBlock_eq (T : TrainingSet) (draw : String → ℕ → ℕ)
    (c : String) : (balanceBlock T draw c).length = majoritySize T := by
  rcases length_balanceBlock T draw c with h | ⟨h1, h2⟩
  · exact h
  · rw [h2, h1]

theorem filter_flatMap_blocks (L : List String)
    (f : String → List LabeledSample)
    (hlab : ∀ c ∈ L, ∀ s ∈ f c, s.label = c)
    (hnd : L.Nodup) (c : String) (hc : c ∈ L) :
    (L.flatMap f).filter (fun s => s.label = c) = f c := by
  induction L with
  | nil => cases hc
  | cons d t ih =>
    rw [List.flatMap_cons, List.filter_append]
    rcases List.mem_cons.mp hc with h | h
    · subst h
      have h1 : (f c).filter (fun s => s.label = c) = f c := by
        apply List.filter_eq_self.mpr
        intro s hs
        simpa using hlab c (List.mem_cons_self _ _) s hs
      have h2 : (t.flatMap f).filter (fun s => s.label = c) = [] := by
        apply List.filter_eq_nil_iff.mpr
        intro s hs
        rcases List.mem_flatMap.mp hs with ⟨d2, hd2, hsd⟩
        have hlab2 : s.label = d2 := hlab d2 (List.mem_cons_of_mem _ hd2) s hsd
        have hne : d2 ≠ c := fun he => (List.nodup_cons.mp hnd).1 (he ▸ hd2)
        simp [hlab2, hne]
      rw [h1, h2, List.append_nil]
    · have hne : d ≠ c := fun he => (List.nodup_cons.mp hnd).1 (he ▸ h)
      have h1 : (f d).filter (fun s => s.label = c) = [] := by
        apply List.filter_eq_nil_iff.mpr
        intro s hs
        have hlab2 : s.label = d := hlab d (List.mem_cons_self _ _) s hs
        simp [hlab2, hne]
      rw [h1, List.nil_append]
      exact ih (fun c2 hc2 s hs => hlab c2 (List.mem_cons_of_mem _ hc2) s hs)
        (List.nodup_cons.mp hnd).2 h

theorem balance_filter_eq {T : TrainingSet} {draw : String → ℕ → ℕ}
    {c : String} (hc : c ∈ uniqueLabels (T.map fun s => s.label)) :
    (balance T draw).filter (fun s => s.label = c) = balanceBlock T draw c := by
  rw [balance_eq_flatMap]
  apply filter_flatMap_blocks _ _ _ (nodup_uniqueLabels _) c hc
  intro c2 hc2 s hs
  exact label_of_mem_classMembers (mem_balanceBlock_mem hc2 hs)

theorem mem_annotate_sample_eq {T : TrainingSet} {q : FeatureVector}
    {n : Neighbor} (h : n ∈ annotate T q) (hlt : n.idx < T.length) :
    n.sample = T.get ⟨n.idx, hlt⟩ := by
  unfold annotate at h
  rcases List.mem_map.mp h with ⟨p, hp, rfl⟩
  obtain ⟨i, x⟩ := p
  have h2 : T[i]? = some x := List.mk_mem_enum_iff_getElem?.mp hp
  rw [List.getElem?_eq_getElem hlt] at h2
  simpa [List.get_eq_getElem] using (Option.some.inj h2).symm

/-- The 5-row training table of the chapter's worked example
(`tab:05-multiknn-mathtable`): the five nearest rows to the query
(Perimeter, Concavity) = (0, 3.5), with their B/M class labels. -/
def exampleTrain : TrainingSet :=
  [⟨[0.24, 2.65], "B"⟩, ⟨[0.75, 2.87], "M"⟩, ⟨[0.62, 2.54], "M"⟩,
   ⟨[0.42, 2.31], "M"⟩, ⟨[-1.16, 4.04], "B"⟩]

/-- A three-row training set whose rows are all at squared distance 1 from
the origin: an artificially constructed exact distance tie. -/
def tieTrain : TrainingSet :=
  [⟨[0, 1], "A"⟩, ⟨[1, 0], "B"⟩, ⟨[0, -1], "C"⟩]

/-- A ten-row training set used to exercise the out-of-range `k` checks. -/
def tenTrain : TrainingSet :=
  (List.range 10).map fun i => ⟨[(i : ℚ)], "B"⟩

/-- A rare-class table: three Malignant rows and four Benign rows, as in
the chapter's `rare_cancer` discussion (scaled down). -/
def rareTrain : TrainingSet :=
  [⟨[2, 2], "Malignant"⟩, ⟨[3, 3], "Malignant"⟩, ⟨[4, 4], "Malignant"⟩,
   ⟨[0, 0], "Benign"⟩, ⟨[0, 1], "Benign"⟩, ⟨[1, 0], "Benign"⟩,
   ⟨[1, 1], "Benign"⟩]

/-- An imbalanced table for the resampler: three Benign rows, two
Malignant rows, with distinct feature values. -/
def imbalTrain : TrainingSet :=
  [⟨[1], "Benign"⟩, ⟨[2], "Benign"⟩, ⟨[3], "Benign"⟩,
   ⟨[10], "Malignant"⟩, ⟨[20], "Malignant"⟩]

/-- A draw function that always picks the first member of a class. -/
def drawZero : String → ℕ → ℕ := fun _ _ => 0

/-- C1: for every pair of equal-length feature vectors the computed
distance is the square root of the sum of squared coordinate differences
(for any number m of predictors), and for a = (0, 3.5), b = (0.24, 2.65)
it equals sqrt(0.24^2 + 0.85^2) ≈ 0.883, within tolerance 1e-6. -/
theorem C1_distance_formula (a b : List ℚ) (h : a.length = b.length) :
    distance a b =
      Real.sqrt (∑ i ∈ Finset.range a.length,
        ((a.getD i 0 : ℝ) - (b.getD i 0 : ℝ)) ^ 2) ∧
    distance [0, 3.5] [0.24, 2.65] = Real.sqrt ((0.24 : ℝ) ^ 2 + 0.85 ^ 2) ∧
    |distance [0, 3.5] [0.24, 2.65] -
      Real.sqrt ((0.24 : ℝ) ^ 2 + 0.85 ^ 2)| < 1e-6 := by
  have hconc : distance [(0 : ℚ), 3.5] [0.24, 2.65] =
      Real.sqrt ((0.24 : ℝ) ^ 2 + 0.85 ^ 2) := by
    unfold distance
    congr 1
    norm_num [distSq]
  refine ⟨?_, hconc, ?_⟩
  · unfold distance
    congr 1
    exact distSq_eq_rangeSum a b h
  · rw [hconc, sub_self, abs_zero]
    norm_num

theorem C1_distance_formula_witness :
    ([0, 3.5] : List ℚ).length = ([0.24, 2.65] : List ℚ).length ∧
    distance [0, 3.5] [0.24, 2.65] = Real.sqrt ((0.24 : ℝ) ^ 2 + 0.85 ^ 2) :=
  ⟨by decide, (C1_distance_formula [0, 3.5] [0.24, 2.65] (by decide)).2.1⟩

/-- C9: for every pair of equal-length feature vectors, distance is
symmetric, nonnegative, and zero exactly when the vectors are equal
elementwise. -/
theorem C9_distance_metric (a b : List ℚ) (h : a.length = b.length) :
    distance a b = distance b a ∧ 0 ≤ distance a b ∧
    (distance a b = 0 ↔ a = b) := by
  refine ⟨?_, Real.sqrt_nonneg _, ?_⟩
  · unfold distance
    rw [distSq_comm]
  · unfold distance
    rw [Real.sqrt_eq_zero (by exact_mod_cast distSq_nonneg a b)]
    rw [show ((distSq a b : ℚ) : ℝ) = 0 ↔ distSq a b = 0 from by exact_mod_cast Iff.rfl]
    exact distSq_eq_zero_iff a b h

theorem C9_distance_metric_witness :
    ([0, 3.5] : List ℚ).length = ([0.24, 2.65] : List ℚ).length ∧
    (distance [0, 3.5] [0.24, 2.65] = distance [0.24, 2.65] [0, 3.5] ∧
      0 ≤ distance [0, 3.5] [0.24, 2.65] ∧
      (distance [0, 3.5] [0.24, 2.65] = 0 ↔
        ([0, 3.5] : List ℚ) = [0.24, 2.65])) :=
  ⟨by decide, C9_distance_metric [0, 3.5] [0.24, 2.65] (by decide)⟩

/-- C2: for every training set, query and k between 1 and the training
set size, `nearest` computes the distance to every sample (the sorted pool
is a permutation of the whole training set), returns exactly k pairs
sorted ascending by distance, each pairing a training sample with its
distance to the query, and every selected sample is at least as close as
every unselected one. -/
theorem C2_nearest_k_smallest (T : TrainingSet) (q : FeatureVector) (k : ℕ)
    (h1 : 1 ≤ k) (h2 : k ≤ T.length) :
    (nearest T q k).length = k ∧
    ((nearest T q k).map Prod.snd).Sorted (· ≤ ·) ∧
    (∀ p ∈ nearest T q k, p.1 ∈ T ∧ p.2 = distance p.1.features q) ∧
    ((sortedNeighbors T q).map Neighbor.sample).Perm T ∧
    (∀ x ∈ nearestAux T q k, ∀ y ∈ (sortedNeighbors T q).drop k,
      x.dsq ≤ y.dsq) := by
  have hlen : (nearestAux T q k).length = k := by
    unfold nearestAux
    rw [List.length_take, length_sortedNeighbors]
    exact min_eq_left h2
  have hperm : ((sortedNeighbors T q).map Neighbor.sample).Perm T := by
    have := (sortedNeighbors_perm T q).map Neighbor.sample
    rw [annotate_sample_map T q] at this
    exact this
  have hdsq_le : ∀ x ∈ nearestAux T q k, ∀ y ∈ (sortedNeighbors T q).drop k,
      x.dsq ≤ y.dsq := by
    intro x hx y hy
    rcases take_le_drop_of_sorted T q k x hx y hy with h | ⟨h, _⟩
    · exact le_of_lt h
    · exact le_of_eq h
  refine ⟨?_, ?_, ?_, hperm, hdsq_le⟩
  · unfold nearest
    rw [List.length_map, hlen]
  · unfold nearest
    rw [List.map_map]
    have hpw : (nearestAux T q k).Pairwise neighborLE :=
      (sortedNeighbors_sorted T q).sublist (List.take_sublist k _)
    refine List.Pairwise.map _ ?_ hpw
    intro a b hab
    have hq : a.dsq ≤ b.dsq := by
      rcases hab with h | ⟨h, _⟩
      · exact le_of_lt h
      · exact le_of_eq h
    exact Real.sqrt_le_sqrt (by exact_mod_cast hq)
  · intro p hp
    rcases List.mem_map.mp hp with ⟨n, hn, rfl⟩
    obtain ⟨_, hmem, hdsq⟩ := mem_nearestAux_elim hn
    refine ⟨hmem, ?_⟩
    show Real.sqrt ((n.dsq : ℚ)) = distance n.sample.features q
    rw [hdsq]
    rfl

theorem C2_nearest_k_smallest_witness :
    1 ≤ 5 ∧ 5 ≤ exampleTrain.length ∧
    ((nearest exampleTrain [0, 3.5] 5).length = 5 ∧
    ((nearest exampleTrain [0, 3.5] 5).map Prod.snd).Sorted (· ≤ ·) ∧
    (∀ p ∈ nearest exampleTrain [0, 3.5] 5,
      p.1 ∈ exampleTrain ∧ p.2 = distance p.1.features [0, 3.5]) ∧
    ((sortedNeighbors exampleTrain [0, 3.5]).map Neighbor.sample).Perm
      exampleTrain ∧
    (∀ x ∈ nearestAux exampleTrain [0, 3.5] 5,
      ∀ y ∈ (sortedNeighbors exampleTrain [0, 3.5]).drop 5,
        x.dsq ≤ y.dsq)) :=
  ⟨by decide, by decide,
    C2_nearest_k_smallest exampleTrain [0, 3.5] 5 (by decide) (by decide)⟩

/-- C3: predictOne tallies the labels of the k nearest neighbors and
returns a label attaining the highest count; on the chapter's worked
5-row example with labels [B, M, M, M, B] in ascending distance order and
k = 5 it returns M. -/
theorem C3_predictOne_majority (T : TrainingSet) (q : FeatureVector) (k : ℕ)
    (h1 : 1 ≤ k) (h2 : k ≤ T.length) :
    (∃ w, predictOne T q k = some w ∧ w ∈ neighborLabels T q k ∧
      ∀ c ∈ neighborLabels T q k,
        (neighborLabels T q k).count c ≤ (neighborLabels T q k).count w) ∧
    predictOne exampleTrain [0, 3.5] 5 = some "M" := by
  constructor
  · have hne : neighborLabels T q k ≠ [] := by
      unfold neighborLabels
      intro hnil
      have := congrArg List.length hnil
      rw [List.length_map] at this
      unfold nearestAux at this
      rw [List.length_take, length_sortedNeighbors] at this
      rw [min_eq_left h2] at this
      simp at this
      omega
    obtain ⟨w, hsome, hwmem, hmax, _⟩ := pickMajority_spec (neighborLabels T q k) hne
    exact ⟨w, hsome, hwmem, hmax⟩
  · norm_num +decide [predictOne, pickMajority, neighborLabels, nearestAux,
      sortedNeighbors, annotate, exampleTrain, List.insertionSort,
      List.orderedInsert, neighborLE, distSq, voteStep, List.count_cons,
      List.count_nil, beq_iff_eq]

theorem C3_predictOne_majority_witness :
    1 ≤ 5 ∧ 5 ≤ exampleTrain.length ∧
    ((∃ w, predictOne exampleTrain [0, 3.5] 5 = some w ∧
      w ∈ neighborLabels exampleTrain [0, 3.5] 5 ∧
      ∀ c ∈ neighborLabels exampleTrain [0, 3.5] 5,
        (neighborLabels exampleTrain [0, 3.5] 5).count c ≤
          (neighborLabels exampleTrain [0, 3.5] 5).count w) ∧
    predictOne exampleTrain [0, 3.5] 5 = some "M") :=
  ⟨by decide, by decide,
    C3_predictOne_majority exampleTrain [0, 3.5] 5 (by decide) (by decide)⟩

/-- A two-row training set producing an exact vote tie: the nearer row is
labeled B, the farther M, and with k = 2 each label receives one vote. -/
def tieVoteTrain : TrainingSet :=
  [⟨[0, 1], "B"⟩, ⟨[3, 0], "M"⟩]

/-- C7: when labels tie for the maximum vote count, predictOne still
returns a value (no crash) and the winner is the first label, in
ascending-distance scan order, whose count is maximal: every label
scanned strictly before the winner has strictly smaller count, so any
tied label occurs no earlier than the winner. -/
theorem C7_vote_tie_first_nearest (T : TrainingSet) (q : FeatureVector)
    (k : ℕ) (h1 : 1 ≤ k) (h2 : k ≤ T.length) :
    ∃ w pre post, predictOne T q k = some w ∧
      neighborLabels T q k = pre ++ w :: post ∧
      (∀ c ∈ pre,
        (neighborLabels T q k).count c < (neighborLabels T q k).count w) ∧
      ∀ c ∈ neighborLabels T q k,
        (neighborLabels T q k).count c ≤ (neighborLabels T q k).count w := by
  have hne : neighborLabels T q k ≠ [] := by
    unfold neighborLabels
    intro hnil
    have := congrArg List.length hnil
    rw [List.length_map] at this
    unfold nearestAux at this
    rw [List.length_take, length_sortedNeighbors, min_eq_left h2] at this
    simp at this
    omega
  obtain ⟨w, hsome, _, hmax, pre, post, hsplit, hpre⟩ :=
    pickMajority_spec (neighborLabels T q k) hne
  exact ⟨w, pre, post, hsome, hsplit, hpre, hmax⟩

theorem C7_vote_tie_first_nearest_witness :
    1 ≤ 2 ∧ 2 ≤ tieVoteTrain.length ∧
    (∃ w pre post, predictOne tieVoteTrain [0, 0] 2 = some w ∧
      neighborLabels tieVoteTrain [0, 0] 2 = pre ++ w :: post ∧
      (∀ c ∈ pre,
        (neighborLabels tieVoteTrain [0, 0] 2).count c <
          (neighborLabels tieVoteTrain [0, 0] 2).count w) ∧
      ∀ c ∈ neighborLabels tieVoteTrain [0, 0] 2,
        (neighborLabels tieVoteTrain [0, 0] 2).count c ≤
          (neighborLabels tieVoteTrain [0, 0] 2).count w) :=
  ⟨by decide, by decide,
    C7_vote_tie_first_nearest tieVoteTrain [0, 0] 2 (by decide) (by decide)⟩

/-- C6: neighbor selection breaks exact distance ties by insertion order:
if two training rows are equidistant from the query and the later one is
selected among the k nearest, the earlier one is selected as well, so the
selection is deterministic and stable. -/
theorem C6_tie_break_insertion_order (T : TrainingSet) (q : FeatureVector)
    (k i j : ℕ) (hi : i < T.length) (hj : j < T.length) (hij : i < j)
    (heq : distSq (T.get ⟨i, hi⟩).features q =
      distSq (T.get ⟨j, hj⟩).features q)
    (hsel : ∃ p ∈ nearestAux T q k, p.idx = j) :
    ∃ p ∈ nearestAux T q k, p.idx = i := by
  obtain ⟨pj, hpj, hpjidx⟩ := hsel
  set ei : Neighbor := ⟨i, T.get ⟨i, hi⟩, distSq (T.get ⟨i, hi⟩).features q⟩
    with hei
  have hei_ann : ei ∈ annotate T q := mem_annotate_of_lt T q i hi
  have hei_sorted : ei ∈ sortedNeighbors T q :=
    (sortedNeighbors_perm T q).mem_iff.mpr hei_ann
  by_cases htk : ei ∈ nearestAux T q k
  · exact ⟨ei, htk, rfl⟩
  · exfalso
    have hdrop : ei ∈ (sortedNeighbors T q).drop k := by
      have := (List.take_append_drop k (sortedNeighbors T q)).symm
      rw [this] at hei_sorted
      rcases List.mem_append.mp hei_sorted with h | h
      · exact absurd h htk
      · exact h
    have hle : neighborLE pj ei := take_le_drop_of_sorted T q k pj hpj ei hdrop
    have hpj_ann : pj ∈ annotate T q :=
      (sortedNeighbors_perm T q).mem_iff.mp
        ((List.take_sublist k (sortedNeighbors T q)).subset hpj)
    have hpj_lt : pj.idx < T.length := (mem_annotate_elim hpj_ann).1
    have hpj_sample : pj.sample = T.get ⟨pj.idx, hpj_lt⟩ :=
      mem_annotate_sample_eq hpj_ann hpj_lt
    have hpj_dsq : pj.dsq = distSq (T.get ⟨j, hj⟩).features q := by
      have := (mem_annotate_elim hpj_ann).2.2
      rw [this, hpj_sample]
      congr 1
      · simp [hpjidx]
    have hdsq_eq : pj.dsq = ei.dsq := by
      rw [hpj_dsq, hei]
      exact heq.symm
    rcases hle with h | ⟨_, h⟩
    · rw [hdsq_eq] at h
      exact lt_irrefl _ h
    · rw [hpjidx] at h
      have : ei.idx = i := rfl
      omega

theorem C6_tie_break_insertion_order_witness :
    (0 : ℕ) < 1 ∧
    distSq ((tieTrain.get ⟨0, by decide⟩).features) [0, 0] =
      distSq ((tieTrain.get ⟨1, by decide⟩).features) [0, 0] ∧
    (∃ p ∈ nearestAux tieTrain [0, 0] 2, p.idx = 1) ∧
    (∃ p ∈ nearestAux tieTrain [0, 0] 2, p.idx = 0) := by
  have heq : distSq ((tieTrain.get ⟨0, by decide⟩).features) [0, 0] =
      distSq ((tieTrain.get ⟨1, by decide⟩).features) [0, 0] := by
    norm_num [tieTrain, distSq]
  have hsel : ∃ p ∈ nearestAux tieTrain [0, 0] 2, p.idx = 1 := by
    norm_num +decide [nearestAux, sortedNeighbors, annotate, tieTrain,
      List.insertionSort, List.orderedInsert, neighborLE, distSq]
  exact ⟨by decide, heq, hsel,
    C6_tie_break_insertion_order tieTrain [0, 0] 2 0 1 (by decide) (by decide)
      (by decide) heq hsel⟩

/-- C8: build fails with InvalidArgumentError exactly when k <= 0 or k
exceeds the training set size, so a size-10 set rejects k = 11 and k = 0;
a successful build stores the validated k, so the check happens at
construction time and predictions only run on validated classifiers. -/
theorem C8_build_validates_k (T : TrainingSet) (k : ℤ) :
    (build T k = Except.error KnnError.invalidArgument ↔
      k ≤ 0 ∨ (T.length : ℤ) < k) ∧
    (∀ C, build T k = Except.ok C →
      C.train = T ∧ (C.k : ℤ) = k ∧ 1 ≤ C.k ∧ C.k ≤ T.length) := by
  unfold build
  by_cases hcond : k ≤ 0 ∨ (T.length : ℤ) < k
  · rw [if_pos hcond]
    refine ⟨⟨fun _ => hcond, fun _ => rfl⟩, ?_⟩
    intro C hC
    exact absurd hC (by simp)
  · rw [if_neg hcond]
    have hcond2 := hcond
    push_neg at hcond2
    obtain ⟨hk0, hkn⟩ := hcond2
    refine ⟨⟨fun h => absurd h (by simp), fun h => absurd h hcond⟩, ?_⟩
    intro C hC
    have hCeq : C = ⟨T, k.toNat⟩ := (Except.ok.inj hC).symm
    subst hCeq
    refine ⟨rfl, Int.toNat_of_nonneg (le_of_lt hk0), ?_, ?_⟩
    · show 1 ≤ k.toNat
      omega
    · show k.toNat ≤ T.length
      omega

theorem C8_build_validates_k_witness :
    build tenTrain 11 = Except.error KnnError.invalidArgument ∧
    build tenTrain 0 = Except.error KnnError.invalidArgument :=
  ⟨(C8_build_validates_k tenTrain 11).1.mpr (by decide),
   (C8_build_validates_k tenTrain 0).1.mpr (by decide)⟩

theorem count_pair_eq_length (r b : String) (hne : r ≠ b) :
    ∀ ls : List String, (∀ c ∈ ls, c = r ∨ c = b) →
      ls.count r + ls.count b = ls.length := by
  intro ls
  induction ls with
  | nil => simp
  | cons c t ih =>
    intro h
    have hct := ih fun d hd => h d (List.mem_cons_of_mem _ hd)
    rcases h c (List.mem_cons_self _ _) with hc | hc
    · subst hc
      simp only [List.count_cons, beq_iff_eq, List.length_cons]
      simp only [if_true, if_neg hne]
      omega
    · subst hc
      simp only [List.count_cons, beq_iff_eq, List.length_cons]
      simp only [if_true, if_neg (Ne.symm hne)]
      omega

theorem count_neighborLabels_le (T : TrainingSet) (q : FeatureVector)
    (k : ℕ) (c : String) :
    (neighborLabels T q k).count c ≤ (T.map fun s => s.label).count c := by
  have hperm : ((sortedNeighbors T q).map fun n => n.sample.label).Perm
      (T.map fun s => s.label) := by
    have h1 := (sortedNeighbors_perm T q).map Neighbor.sample
    rw [annotate_sample_map] at h1
    have h2 := h1.map fun s : LabeledSample => s.label
    rw [List.map_map] at h2
    exact h2
  have hsub : List.Sublist (neighborLabels T q k)
      ((sortedNeighbors T q).map fun n => n.sample.label) := by
    unfold neighborLabels nearestAux
    exact (List.take_sublist k (sortedNeighbors T q)).map _
  calc (neighborLabels T q k).count c
      ≤ ((sortedNeighbors T q).map fun n => n.sample.label).count c :=
        hsub.count_le c
    _ = (T.map fun s => s.label).count c := hperm.count_eq c

/-- C10: if one label occurs at most 3 times in the training set, the
other at least 4 times, every row carries one of the two labels and the
set has at least 7 rows, then the k = 7 uniform majority-vote classifier
predicts the non-rare label for every query vector, since at most 3 of
the 7 votes can carry the rare label. -/
theorem C10_rare_class_majority (T : TrainingSet) (q : FeatureVector)
    (r b : String) (hne : r ≠ b)
    (hbinary : ∀ s ∈ T, s.label = r ∨ s.label = b)
    (hr : (T.map fun s => s.label).count r ≤ 3)
    (hb : 4 ≤ (T.map fun s => s.label).count b)
    (hlen : 7 ≤ T.length) :
    predictOne T q 7 = some b := by
  have hlslen : (neighborLabels T q 7).length = 7 := by
    unfold neighborLabels nearestAux
    rw [List.length_map, List.length_take, length_sortedNeighbors]
    exact min_eq_left hlen
  have hlsne : neighborLabels T q 7 ≠ [] := by
    intro h0
    rw [h0] at hlslen
    simp at hlslen
  have hbinls : ∀ c ∈ neighborLabels T q 7, c = r ∨ c = b := by
    intro c hc
    rcases List.mem_map.mp hc with ⟨n, hn, rfl⟩
    exact hbinary n.sample (mem_nearestAux_elim hn).2.1
  have hcr : (neighborLabels T q 7).count r ≤ 3 :=
    le_trans (count_neighborLabels_le T q 7 r) hr
  have hsum : (neighborLabels T q 7).count r +
      (neighborLabels T q 7).count b = 7 := by
    have hpe := count_pair_eq_length r b hne _ hbinls
    rw [hlslen] at hpe
    exact hpe
  obtain ⟨w, hsome, hwmem, hmax, _⟩ :=
    pickMajority_spec (neighborLabels T q 7) hlsne
  have hbmem : b ∈ neighborLabels T q 7 := by
    have : 0 < (neighborLabels T q 7).count b := by omega
    exact List.count_pos_iff.mp this
  rcases hbinls w hwmem with hw | hw
  · exfalso
    have := hmax b hbmem
    rw [hw] at this
    omega
  · rw [show predictOne T q 7 = pickMajority (neighborLabels T q 7) from rfl,
      hsome, hw]

theorem C10_rare_class_majority_witness :
    "Malignant" ≠ "Benign" ∧
    (rareTrain.map fun s => s.label).count "Malignant" ≤ 3 ∧
    4 ≤ (rareTrain.map fun s => s.label).count "Benign" ∧
    7 ≤ rareTrain.length ∧
    predictOne rareTrain [2, 2] 7 = some "Benign" :=
  ⟨by decide, by decide, by decide, by decide,
    C10_rare_class_majority rareTrain [2, 2] "Malignant" "Benign" (by decide)
      (by decide) (by decide) (by decide) (by decide)⟩

/-- C4 counterexample: on a non-empty table whose predictor column is
constant (zero variance), fit-then-transform yields a column of standard
deviation 0, not 1, so the claim does not hold for every non-empty table. -/
theorem C4_scaler_constant_column_cex :
    ([(1 : ℚ), 1] : List ℚ) ≠ [] ∧
    stdR (transformCol [(1 : ℚ), 1]) = 0 ∧ (0 : ℝ) ≠ 1 := by
  refine ⟨by decide, ?_, by norm_num⟩
  have hm : colMean [(1 : ℚ), 1] = 1 := by norm_num [colMean]
  have hv : colVar [(1 : ℚ), 1] = 0 := by norm_num [colVar, colMean]
  have ht : transformCol [(1 : ℚ), 1] = [0, 0] := by
    simp [transformCol, colScale, hv, hm]
  rw [ht]
  simp [stdR, varR, meanR]

/-- C4 (amended): for every non-empty column of nonzero variance,
fit-then-transform replaces each value with (value - mean) / stddev and
the result has mean 0, variance 1 and standard deviation 1 exactly. -/
theorem C4_scaler_standardizes (xs : List ℚ) (h : xs ≠ [])
    (hv : colVar xs ≠ 0) :
    transformCol xs = (xs.map fun x : ℚ =>
      ((x - colMean xs : ℚ) : ℝ) / Real.sqrt ((colVar xs : ℚ))) ∧
    meanR (transformCol xs) = 0 ∧
    varR (transformCol xs) = 1 ∧
    stdR (transformCol xs) = 1 := by
  refine ⟨?_, meanR_transformCol xs h, varR_transformCol xs h hv,
    stdR_transformCol xs h hv⟩
  unfold transformCol colScale
  rw [if_neg hv]

theorem C4_scaler_standardizes_witness :
    ([(1 : ℚ), 3] : List ℚ) ≠ [] ∧ colVar [(1 : ℚ), 3] ≠ 0 ∧
    (transformCol [(1 : ℚ), 3] = (([(1 : ℚ), 3] : List ℚ).map fun x : ℚ =>
      ((x - colMean [(1 : ℚ), 3] : ℚ) : ℝ) /
        Real.sqrt ((colVar [(1 : ℚ), 3] : ℚ))) ∧
    meanR (transformCol [(1 : ℚ), 3]) = 0 ∧
    varR (transformCol [(1 : ℚ), 3]) = 1 ∧
    stdR (transformCol [(1 : ℚ), 3]) = 1) :=
  ⟨by decide, by norm_num [colVar, colMean],
    C4_scaler_standardizes [1, 3] (by decide) (by norm_num [colVar, colMean])⟩

/-- C5 counterexample: with three Benign and two Malignant rows and a draw
that always picks the first Malignant member, `balance` produces a
class-balanced table in which the second original Malignant row never
appears, so "every original minority-class row still appears at least
once" does not hold for every draw. -/
theorem C5_balance_coverage_cex :
    (⟨[20], "Malignant"⟩ : LabeledSample) ∈ classMembers imbalTrain "Malignant" ∧
    (⟨[20], "Malignant"⟩ : LabeledSample) ∉ balance imbalTrain drawZero := by
  constructor
  · decide
  · norm_num +decide [balance, uniqueLabels, classMembers, majoritySize,
      resampleClass, imbalTrain, drawZero]

/-- C5 (amended): for every labeled table with at least two distinct
labels and any draw function, `balance` returns a table in which every
class count equals the majority class size, any class already at the
majority size (in particular the majority class) is passed through
unchanged, and every returned row is a row of the input table (minority
rows are drawn from existing members only). -/
theorem C5_balance_properties (T : TrainingSet) (draw : String → ℕ → ℕ)
    (hd : 2 ≤ (uniqueLabels (T.map fun s => s.label)).length) :
    (∀ c ∈ uniqueLabels (T.map fun s => s.label),
      ((balance T draw).filter fun s => s.label = c).length = majoritySize T) ∧
    (∀ c ∈ uniqueLabels (T.map fun s => s.label),
      (classMembers T c).length = majoritySize T →
        (balance T draw).filter (fun s => s.label = c) = classMembers T c) ∧
    (∀ s ∈ balance T draw, s ∈ T) := by
  refine ⟨?_, ?_, ?_⟩
  · intro c hc
    rw [balance_filter_eq hc, length_balanceBlock_eq T draw c]
  · intro c hc hM
    rw [balance_filter_eq hc]
    unfold balanceBlock
    rw [if_pos hM]
  · intro s hs
    rw [balance_eq_flatMap] at hs
    rcases List.mem_flatMap.mp hs with ⟨c, hc, hsc⟩
    exact mem_of_mem_classMembers (mem_balanceBlock_mem hc hsc)

theorem C5_balance_properties_witness :
    2 ≤ (uniqueLabels (imbalTrain.map fun s => s.label)).length ∧
    ((∀ c ∈ uniqueLabels (imbalTrain.map fun s => s.label),
      ((balance imbalTrain drawZero).filter fun s => s.label = c).length =
        majoritySize imbalTrain) ∧
    (∀ c ∈ uniqueLabels (imbalTrain.map fun s => s.label),
      (classMembers imbalTrain c).length = majoritySize imbalTrain →
        (balance imbalTrain drawZero).filter (fun s => s.label = c) =
          classMembers imbalTrain c) ∧
    (∀ s ∈ balance imbalTrain drawZero, s ∈ imbalTrain)) := by
  have hd : 2 ≤ (uniqueLabels (imbalTrain.map fun s => s.label)).length := by
    norm_num +decide [uniqueLabels, imbalTrain]
  exact ⟨hd, C5_balance_properties imbalTrain drawZero hd⟩

end KnnCore
